import Mathlib

/-!
Shallow embedding of the vizctrl-monorepo core: the quantity/unit
conversion layer (`packages/core/src/quantity.ts`), the radial dial
angle-value mapping and interaction handlers
(`packages/react/src/Dial.tsx`), the heading wrapper
(`packages/react/src/HeadingControl.tsx`) and the numeric-entry path of
the speed/altitude wrappers.

JavaScript numbers are modelled as rationals (ℚ).  Where the source can
produce a non-finite number (division by zero flowing into
`Math.round`/`toFixed`, `NaN` from parsing), the embedding uses
`Option ℚ`, with `none` standing for a non-finite value (NaN or ±∞);
the JS `Math.min`/`Math.max`/arithmetic operators propagate non-finite
inputs to non-finite outputs, which `Option` mirrors.
-/

namespace VizCtrl

/-- The `Unit` union from quantity.ts: 'm' | 'ft' | 'ms' | 'kmh' | 'mph' | 'kts'. -/
inductive Unit where
  | m | ft | ms | kmh | mph | kts
  deriving DecidableEq, BEq

/-- The `Quantity` interface: a numeric magnitude paired with a unit tag. -/
structure Quantity where
  value : ℚ
  unit : Unit
  deriving DecidableEq

/-- The `factors` record: canonical factor for each unit (metres for
length, metres per second for speed), as an association list so that the
record lookup in `convert` can be modelled faithfully (a lookup miss is
what triggers the throw branch in the source). -/
def factorsRecord : List (Unit × ℚ) :=
  [(Unit.m, 1), (Unit.ft, 3048 / 10000), (Unit.ms, 1),
   (Unit.kmh, 1000 / 3600), (Unit.mph, 1609344 / 1000 / 3600), (Unit.kts, 1852 / 3600)]

/-- Physical dimension of a unit (length vs speed); this grouping is
described in the spec but has no runtime counterpart in quantity.ts. -/
inductive Dim where
  | length | speed
  deriving DecidableEq

/-- Dimension grouping: length = {m, ft}; speed = {ms, kmh, mph, kts}. -/
def dimension : Unit → Dim
  | .m => .length
  | .ft => .length
  | .ms => .speed
  | .kmh => .speed
  | .mph => .speed
  | .kts => .speed

/-- The `convert` function from quantity.ts: route through the canonical
unit; throw (modelled as `Except.error`) when either factor lookup comes
back undefined.  The source names the second parameter `to`, which is a
reserved word here, hence `tgt`. -/
def convert (qty : Quantity) (tgt : Unit) : Except String Quantity :=
  match factorsRecord.lookup qty.unit, factorsRecord.lookup tgt with
  | some fromFactor, some toFactor =>
      let canonical := qty.value * fromFactor
      Except.ok { value := canonical / toFactor, unit := tgt }
  | _, _ => Except.error "unsupported unit"

/-- Total view of the factors record (every member of the `Unit` union
has an entry, so lookups never miss). -/
def factorOf : Unit → ℚ
  | .m => 1
  | .ft => 3048 / 10000
  | .ms => 1
  | .kmh => 1000 / 3600
  | .mph => 1609344 / 1000 / 3600
  | .kts => 1852 / 3600

lemma lookup_factorsRecord (u : Unit) : factorsRecord.lookup u = some (factorOf u) := by
  cases u <;> rfl

lemma convert_eq (q : Quantity) (u : Unit) :
    convert q u = Except.ok ⟨q.value * factorOf q.unit / factorOf u, u⟩ := by
  cases q with
  | mk v w => cases w <;> cases u <;> rfl

lemma factorOf_pos (u : Unit) : 0 < factorOf u := by
  cases u <;> norm_num [factorOf]

lemma factorOf_ne_zero (u : Unit) : factorOf u ≠ 0 := ne_of_gt (factorOf_pos u)

/-- C1 counterexample: converting feet to km/h — two units of different
dimensions — does **not** fail: `convert` returns an ok Quantity
(value 1.09728) because both units have registered canonical factors and
no dimension check exists. -/
theorem convert_cross_dimension_ok :
    convert ⟨1, Unit.ft⟩ Unit.kmh = Except.ok ⟨3429 / 3125, Unit.kmh⟩ ∧
    dimension Unit.ft ≠ dimension Unit.kmh := by
  refine ⟨?_, by decide⟩
  rw [convert_eq]
  norm_num [factorOf]

/-- C1 (amended): `convert` never fails on units of the `Unit` union —
including cross-dimension pairs — and always returns the value routed
through the canonical factors of the two units. -/
theorem convert_never_fails (q : Quantity) (u : Unit) :
    convert q u = Except.ok ⟨q.value * factorOf q.unit / factorOf u, u⟩ :=
  convert_eq q u

/-- C2: for any two units of the same dimension and any value `v`,
converting `v` from A to B and back to A yields `v` within `1e-9`
relative tolerance (in the rational model the round trip is exact). -/
theorem convert_roundtrip (A B : Unit) (v : ℚ) (h : dimension A = dimension B) :
    ∃ q1 q2, convert ⟨v, A⟩ B = Except.ok q1 ∧ convert q1 A = Except.ok q2 ∧
      |q2.value - v| ≤ 1 / 10 ^ 9 * |v| := by
  refine ⟨_, _, convert_eq _ _, convert_eq _ _, ?_⟩
  have hA := factorOf_ne_zero A
  have hB := factorOf_ne_zero B
  have hv : (v * factorOf A / factorOf B) * factorOf B / factorOf A = v := by
    field_simp
  simp only [hv, sub_self, abs_zero]
  positivity

/-- Witness for C2 at the spec's conversion literal: 100 km/h → m/s → km/h. -/
theorem convert_roundtrip_witness :
    dimension Unit.kmh = dimension Unit.ms ∧
    ∃ q1 q2, convert ⟨100, Unit.kmh⟩ Unit.ms = Except.ok q1 ∧
      convert q1 Unit.kmh = Except.ok q2 ∧ |q2.value - 100| ≤ 1 / 10 ^ 9 * |(100 : ℚ)| :=
  ⟨rfl, convert_roundtrip Unit.kmh Unit.ms 100 rfl⟩

/-- JavaScript `Math.round`: nearest integer, ties toward +∞, i.e. ⌊x + 1/2⌋. -/
def jsRound (q : ℚ) : ℤ := ⌊q + 1 / 2⌋

/-- JavaScript `(+x.toFixed(d))`: x rounded to `d` decimal digits
(nearest, ties toward larger, per the `toFixed` spec). -/
def fixRound (x : ℚ) (d : ℕ) : ℚ := (⌊x * 10 ^ d + 1 / 2⌋ : ℚ) / 10 ^ d

/-- JavaScript division, which is the only source of non-finite numbers
in the rounding pipeline: dividing a finite nonzero numerator by zero
gives ±∞ and 0/0 gives NaN, both modelled as `none`. -/
def jsDiv (a b : ℚ) : Option ℚ := if b = 0 then none else some (a / b)

/-- Helper for `decimals`: starting at digit count `d`, the number of
further decimal digits needed until `q` terminates, with a fuel bound
(0 when the fuel runs out; any double terminates within 1100 digits). -/
def decimalsAux : ℕ → ℕ → ℚ → ℕ
  | 0, _, _ => 0
  | fuel + 1, d, q => if (q * 10 ^ d).den = 1 then d else decimalsAux fuel (d + 1) q

/-- The `decimals` helper from quantity.ts (and the inline `d` in Dial's
`round`): the number of digits after the decimal point in the number's
string representation — for a binary float, the least `d` such that
`n * 10^d` is an integer. -/
def decimals (n : ℚ) : ℕ := decimalsAux 1200 0 n

/-- The `roundToStep` function from quantity.ts: snap `v` to the nearest
multiple of `step`, re-quantised to `step`'s decimal precision; if the
computed result is not finite (`none`), return the original `v`. -/
def roundToStep (v s : ℚ) : ℚ :=
  let k := (jsDiv v s).map jsRound
  let r := k.map fun k => fixRound ((k : ℚ) * s) (decimals s)
  match r with
  | some r => r
  | none => v

lemma decimalsAux_succ (fuel d : ℕ) (q : ℚ) :
    decimalsAux (fuel + 1) d q =
      if (q * 10 ^ d).den = 1 then d else decimalsAux fuel (d + 1) q := rfl

lemma decimals_of_den_one (s : ℚ) (h : s.den = 1) : decimals s = 0 := by
  have h0 : ((s * 10 ^ (0 : ℕ)).den = 1) := by simpa using h
  rw [decimals, show (1200 : ℕ) = 1199 + 1 from rfl, decimalsAux_succ, if_pos h0]

example : jsRound (5 / 2) = 3 := by norm_num [jsRound]
example : jsRound (-5 / 2) = -2 := by norm_num [jsRound]
example : decimals (1 / 2) = 1 := by
  have h0 : ¬ (((1 : ℚ) / 2 * 10 ^ (0 : ℕ)).den = 1) := by norm_num [Rat.den]
  rw [decimals, show (1200 : ℕ) = 1199 + 1 from rfl, decimalsAux_succ, if_neg h0,
    show (1199 : ℕ) = 1198 + 1 from rfl, decimalsAux_succ]
  norm_num [Rat.den]

lemma decimalsAux_spec (fuel : ℕ) : ∀ (d : ℕ) (q : ℚ),
    (q * 10 ^ decimalsAux fuel d q).den = 1 ∨ decimalsAux fuel d q = 0 := by
  induction fuel with
  | zero => intro d q; right; rfl
  | succ n ih =>
      intro d q
      by_cases h : (q * 10 ^ d).den = 1
      · left; simpa [decimalsAux, h] using h
      · simpa [decimalsAux, h] using ih (d + 1) q

lemma decimals_spec (s : ℚ) : (s * 10 ^ decimals s).den = 1 ∨ decimals s = 0 :=
  decimalsAux_spec 1200 0 s

lemma jsDiv_of_ne (a b : ℚ) (hb : b ≠ 0) : jsDiv a b = some (a / b) := by
  simp [jsDiv, hb]

lemma roundToStep_eq (v s : ℚ) (hs : s ≠ 0) :
    roundToStep v s = fixRound ((jsRound (v / s) : ℚ) * s) (decimals s) := by
  simp [roundToStep, jsDiv, hs]

lemma fixRound_of_den_one (x : ℚ) (d : ℕ) (h : (x * 10 ^ d).den = 1) :
    fixRound x d = x := by
  have hx : ((x * 10 ^ d).num : ℚ) = x * 10 ^ d := (Rat.den_eq_one_iff _).mp h
  have hpow : (10 : ℚ) ^ d ≠ 0 := by positivity
  have hfl : ⌊x * 10 ^ d + 1 / 2⌋ = (x * 10 ^ d).num := by
    rw [← hx, Int.floor_int_add]
    norm_num
  unfold fixRound
  rw [hfl, hx]
  field_simp

lemma jsRound_intCast (n : ℤ) : jsRound (n : ℚ) = n := by
  unfold jsRound
  rw [Int.floor_int_add]
  norm_num

lemma intCast_mul_den_one (n : ℤ) (q : ℚ) (h : q.den = 1) : ((n : ℚ) * q).den = 1 := by
  have hq : (q.num : ℚ) = q := (Rat.den_eq_one_iff _).mp h
  have : (n : ℚ) * q = ((n * q.num : ℤ) : ℚ) := by push_cast; rw [hq]
  rw [this, Rat.den_intCast]

lemma roundToStep_idem_of_den_one (v s : ℚ) (hs : s ≠ 0)
    (h : (s * 10 ^ decimals s).den = 1) :
    roundToStep (roundToStep v s) s = roundToStep v s := by
  set k := jsRound (v / s) with hk
  have hks : ((k : ℚ) * s * 10 ^ decimals s).den = 1 := by
    rw [mul_assoc]
    exact intCast_mul_den_one k _ h
  have hinner : roundToStep v s = (k : ℚ) * s := by
    rw [roundToStep_eq v s hs]
    exact fixRound_of_den_one _ _ hks
  rw [hinner, roundToStep_eq _ s hs]
  have hdiv : (k : ℚ) * s / s = (k : ℚ) := by field_simp
  rw [hdiv, jsRound_intCast]
  exact (fixRound_of_den_one _ _ hks).trans hinner.symm |>.trans hinner

lemma fixRound_zero (x : ℚ) : fixRound x 0 = (⌊x + 1 / 2⌋ : ℚ) := by
  unfold fixRound
  norm_num

lemma roundToStep_idem_of_decimals_zero (v s : ℚ) (hs : 0 < s) (hd : decimals s = 0) :
    roundToStep (roundToStep v s) s = roundToStep v s := by
  have hs0 : s ≠ 0 := ne_of_gt hs
  rw [roundToStep_eq v s hs0, roundToStep_eq _ s hs0, hd]
  set k := jsRound (v / s) with hk
  rw [fixRound_zero, fixRound_zero]
  set R := ⌊(k : ℚ) * s + 1 / 2⌋ with hR
  have hk2 : jsRound ((R : ℚ) / s) = ⌊(R : ℚ) / s + 1 / 2⌋ := rfl
  rw [hk2]
  set L := ⌊(R : ℚ) / s + 1 / 2⌋ with hL
  suffices hgoal : ⌊(L : ℚ) * s + 1 / 2⌋ = R by rw [hgoal]
  have hR1 : (R : ℚ) ≤ (k : ℚ) * s + 1 / 2 := Int.floor_le _
  have hR2 : (k : ℚ) * s + 1 / 2 < R + 1 := Int.lt_floor_add_one _
  have hL1 : (L : ℚ) ≤ (R : ℚ) / s + 1 / 2 := Int.floor_le _
  have hL2 : (R : ℚ) / s + 1 / 2 < L + 1 := Int.lt_floor_add_one _
  -- multiply the L-bounds through by s > 0
  have hLs1 : (L : ℚ) * s ≤ (R : ℚ) + s / 2 := by
    have := mul_le_mul_of_nonneg_right hL1 hs.le
    calc (L : ℚ) * s ≤ ((R : ℚ) / s + 1 / 2) * s := this
    _ = (R : ℚ) + s / 2 := by field_simp; ring
  have hLs2 : (R : ℚ) - s / 2 < (L : ℚ) * s := by
    have h2 : ((R : ℚ) / s - 1 / 2) * s < (L : ℚ) * s := by
      apply mul_lt_mul_of_pos_right _ hs
      linarith
    calc (R : ℚ) - s / 2 = ((R : ℚ) / s - 1 / 2) * s := by field_simp; ring
    _ < (L : ℚ) * s := h2
  rcases le_or_lt s 1 with hs1 | hs1
  · -- fine step (s ≤ 1): the step grid is at least as fine as the digit grid
    rw [Int.floor_eq_iff]
    constructor
    · linarith
    · -- L * s + 1/2 < R + 1, i.e. L * s < R + 1/2
      by_contra hcon
      push_neg at hcon
      have hseq : s = 1 := le_antisymm hs1 (by linarith)
      rw [hseq, mul_one] at hcon hLs1
      have hRL : R < L := by
        have : (R : ℚ) < L := by linarith
        exact_mod_cast this
      have : (R : ℚ) + 1 ≤ L := by exact_mod_cast hRL
      linarith
  · -- coarse step (s > 1): the second pass recovers the same multiplier k
    have hLk : L = k := by
      rw [hL, Int.floor_eq_iff]
      constructor
      · -- k ≤ R/s + 1/2, i.e. (k - 1/2) * s ≤ R
        have hstep : ((k : ℚ) - 1 / 2) * s ≤ R := by nlinarith
        have : ((k : ℚ) - 1 / 2) ≤ (R : ℚ) / s := (le_div_iff hs).mpr hstep
        linarith
      · -- R/s + 1/2 < k + 1, i.e. R < (k + 1/2) * s
        have hstep : (R : ℚ) < ((k : ℚ) + 1 / 2) * s := by nlinarith
        have : (R : ℚ) / s < (k : ℚ) + 1 / 2 := (div_lt_iff hs).mpr hstep
        linarith
    rw [hLk]

/-- C8: when the rounding pipeline produces a non-finite result — which
happens exactly when `step = 0`, making `v / step` non-finite — the
computed result is `none` (non-finite) and `roundToStep` returns the
original value `v` unchanged. -/
theorem roundToStep_nonfinite_fallback (v s : ℚ) (h : s = 0) :
    ((jsDiv v s).map jsRound).map (fun k => fixRound ((k : ℚ) * s) (decimals s)) = none ∧
    roundToStep v s = v := by
  subst h
  exact ⟨by simp [jsDiv], by simp [roundToStep, jsDiv]⟩

/-- Witness for C8: rounding 7 with step 0 returns 7. -/
theorem roundToStep_nonfinite_fallback_witness :
    (0 : ℚ) = 0 ∧ roundToStep 7 0 = 7 :=
  ⟨rfl, (roundToStep_nonfinite_fallback 7 0 rfl).2⟩

/-- C7: `roundToStep` is idempotent for every value and positive step:
snapping an already-snapped value to the same step grid is a no-op. -/
theorem roundToStep_idempotent (v s : ℚ) (hs : 0 < s) :
    roundToStep (roundToStep v s) s = roundToStep v s := by
  rcases decimals_spec s with h | h
  · exact roundToStep_idem_of_den_one v s (ne_of_gt hs) h
  · exact roundToStep_idem_of_decimals_zero v s hs h

/-- Witness for C7 at v = 7/3, step = 2. -/
theorem roundToStep_idempotent_witness :
    (0 : ℚ) < 2 ∧ roundToStep (roundToStep (7 / 3) 2) 2 = roundToStep (7 / 3) 2 :=
  ⟨by norm_num, roundToStep_idempotent (7 / 3) 2 (by norm_num)⟩

/-! Dial.tsx: the radial dial's configuration, the angle-value mapping,
the clamp helper, the inline `round`, the keyboard handler and the
pointer-drag handlers. -/

/-- The dial configuration relevant to the value computations: `min`,
`max`, `step` props and the arc angles (angles in radians in the source;
they only ever enter the mapping through differences and quotients, so
they are modelled as plain rationals). -/
structure DialCfg where
  min : ℚ
  max : ℚ
  step : ℚ
  startAngle : ℚ
  endAngle : ℚ
  deriving DecidableEq

/-- The `clamp` closure in Dial: `Math.min(max, Math.max(min, v))`. -/
def dialClamp (c : DialCfg) (v : ℚ) : ℚ := min c.max (max c.min v)

/-- The `range` constant in Dial: `max - min`. -/
def dialRange (c : DialCfg) : ℚ := c.max - c.min

/-- The `angleFromValue` callback: linear interpolation from `[min,max]`
to `[startAngle,endAngle]`, with no clamping. -/
def angleFromValue (c : DialCfg) (v : ℚ) : ℚ :=
  c.startAngle + (v - c.min) / dialRange c * (c.endAngle - c.startAngle)

/-- The inline `round` helper in Dial: `Math.round(v / s) * s` then
`toFixed` to `s`'s decimal-digit count; unlike `roundToStep` there is no
finiteness guard, so a non-finite result (`v / 0`) propagates as `none`. -/
def dialRound (v s : ℚ) : Option ℚ :=
  (jsDiv v s).map fun q => fixRound ((jsRound q : ℚ) * s) (decimals s)

/-- The `valueFromAngle` callback: interpolation fraction `t`, clamped to
`[0,1]`, mapped back to `[min,max]`, then step-rounded and clamped.  The
`t` division and the rounding division are the two spots where the JS
computation can go non-finite, hence the `Option` plumbing. -/
def valueFromAngle (c : DialCfg) (ang : ℚ) : Option ℚ :=
  ((jsDiv (ang - c.startAngle) (c.endAngle - c.startAngle)).map fun t =>
      min 1 (max 0 t)).bind fun t =>
    (dialRound (c.min + t * dialRange c) c.step).map (dialClamp c)

/-- The keys handled by Dial's `onKeyDown` switch. -/
inductive DialKey where
  | arrowRight | arrowUp | arrowLeft | arrowDown
  | pageUp | pageDown | homeKey | endKey | other
  deriving DecidableEq

/-- The `coarse` constant in Dial: `Math.max(step * 10, step)`. -/
def dialCoarse (c : DialCfg) : ℚ := max (c.step * 10) c.step

/-- Dial's `onKeyDown` handler: the returned value is the argument of
the single `onChange` call the handler makes (`none` when the key is
unrecognised or the control is disabled and no call happens). -/
def dialOnKeyDown (c : DialCfg) (disabled : Bool) (value : ℚ) (shift : Bool) :
    DialKey → Option ℚ :=
  fun k =>
    if disabled then none
    else
      let delta := if shift then dialCoarse c else c.step
      match k with
      | .arrowRight => some (dialClamp c (value + delta))
      | .arrowUp => some (dialClamp c (value + delta))
      | .arrowLeft => some (dialClamp c (value - delta))
      | .arrowDown => some (dialClamp c (value - delta))
      | .pageUp => some (dialClamp c (value + dialCoarse c))
      | .pageDown => some (dialClamp c (value - dialCoarse c))
      | .homeKey => some c.min
      | .endKey => some c.max
      | .other => none

/-- The svg element's `getBoundingClientRect()` result. -/
structure BoxRect where
  left : ℚ
  top : ℚ
  width : ℚ
  height : ℚ
  deriving DecidableEq

/-- The pointer angle computed by `setFromPointer`:
`Math.atan2(clientY - centerY, clientX - centerX)`.  `atan2` itself is a
fixed pure real function with no rational closed form, so it is passed
in as an (arbitrary) function parameter. -/
def pointerAngle (atan2 : ℚ → ℚ → ℚ) (box : BoxRect) (clientX clientY : ℚ) : ℚ :=
  atan2 (clientY - (box.top + box.height / 2)) (clientX - (box.left + box.width / 2))

/-- `setFromPointer`: the value passed to `onChange` for a pointer at
client coordinates `(clientX, clientY)`. -/
def setFromPointer (atan2 : ℚ → ℚ → ℚ) (c : DialCfg) (box : BoxRect)
    (clientX clientY : ℚ) : Option ℚ :=
  valueFromAngle c (pointerAngle atan2 box clientX clientY)

/-- The pointer events Dial handles (`pointerdown` on the svg, window
`pointermove` / `pointerup`). -/
inductive DialEvent where
  | pointerDown (x y : ℚ)
  | pointerMove (x y : ℚ)
  | pointerUp

/-- One step of Dial's pointer interaction: the only mutable state is
the `dragging` ref (a boolean); the result is the new `dragging` flag
and the emission made (if any) — `some (some q)` is an `onChange(q)`
call, `some none` an `onChange(NaN)` call. -/
def dialPointerStep (atan2 : ℚ → ℚ → ℚ) (c : DialCfg) (box : BoxRect)
    (disabled : Bool) (dragging : Bool) : DialEvent → Bool × Option (Option ℚ)
  | .pointerDown x y =>
      if disabled then (dragging, none)
      else (true, some (setFromPointer atan2 c box x y))
  | .pointerMove x y =>
      if dragging then (dragging, some (setFromPointer atan2 c box x y))
      else (dragging, none)
  | .pointerUp => (false, none)

/-- Run a whole history of pointer events, tracking the `dragging` ref. -/
def runDialEvents (atan2 : ℚ → ℚ → ℚ) (c : DialCfg) (box : BoxRect)
    (disabled : Bool) : List DialEvent → Bool → Bool
  | [], s => s
  | e :: es, s =>
      runDialEvents atan2 c box disabled es (dialPointerStep atan2 c box disabled s e).1

lemma valueFromAngle_eq (c : DialCfg) (ang : ℚ) (harc : c.endAngle - c.startAngle ≠ 0) :
    valueFromAngle c ang =
      (dialRound
        (c.min + min 1 (max 0 ((ang - c.startAngle) / (c.endAngle - c.startAngle))) *
          dialRange c) c.step).map (dialClamp c) := by
  simp [valueFromAngle, jsDiv, harc]

lemma dialClamp_mem (c : DialCfg) (hmm : c.min ≤ c.max) (x : ℚ) :
    c.min ≤ dialClamp c x ∧ dialClamp c x ≤ c.max :=
  ⟨le_min hmm (le_max_left _ _), min_le_left _ _⟩

lemma valueFromAngle_total (c : DialCfg) (ang : ℚ)
    (harc : c.endAngle - c.startAngle ≠ 0) (hstep : c.step ≠ 0) :
    ∃ x, valueFromAngle c ang = some (dialClamp c x) := by
  rw [valueFromAngle_eq _ _ harc]
  unfold dialRound
  rw [jsDiv_of_ne _ _ hstep]
  exact ⟨_, rfl⟩

/-- C3 counterexample: dial with min 1, max 10, step 2, arc [0,1]; the
angle −1 lies outside (before) the arc, yet `valueFromAngle` returns 2 —
the step-rounded image of min — not exactly `min` (and not `max`). -/
theorem valueFromAngle_outside_cex :
    ¬ ((0 : ℚ) ≤ -1 ∧ (-1 : ℚ) ≤ 1) ∧
    valueFromAngle ⟨1, 10, 2, 0, 1⟩ (-1) = some 2 ∧
    (2 : ℚ) ≠ 1 ∧ (2 : ℚ) ≠ 10 := by
  refine ⟨by norm_num, ?_, by norm_num, by norm_num⟩
  have hdec : decimals 2 = 0 := decimals_of_den_one 2 (by norm_num [Rat.den])
  norm_num [valueFromAngle, jsDiv, dialRound, jsRound, fixRound, dialClamp, dialRange, hdec]

/-- C3 (amended): for a dial with `min < max`, positive step and a
non-degenerate arc, every angle on the before-start side of the arc
(interpolation fraction `t ≤ 0`) maps to the step-rounded, clamped image
of `min`, every angle past the end (`t ≥ 1`) to the step-rounded,
clamped image of `max` (these equal `min`/`max` exactly when those lie
on the step grid), and every result lies within `[min, max]` — no
extrapolation outside the value range. -/
theorem valueFromAngle_outside_clamps (c : DialCfg) (ang : ℚ)
    (hmm : c.min < c.max) (hstep : 0 < c.step) (harc : c.startAngle ≠ c.endAngle) :
    ((ang - c.startAngle) / (c.endAngle - c.startAngle) ≤ 0 →
      valueFromAngle c ang = (dialRound c.min c.step).map (dialClamp c)) ∧
    (1 ≤ (ang - c.startAngle) / (c.endAngle - c.startAngle) →
      valueFromAngle c ang = (dialRound c.max c.step).map (dialClamp c)) ∧
    ∀ q, valueFromAngle c ang = some q → c.min ≤ q ∧ q ≤ c.max := by
  have hd : c.endAngle - c.startAngle ≠ 0 := sub_ne_zero.mpr (Ne.symm harc)
  refine ⟨?_, ?_, ?_⟩
  · intro ht
    rw [valueFromAngle_eq _ _ hd]
    rw [max_eq_left ht, min_eq_right (by norm_num : (0 : ℚ) ≤ 1), zero_mul, add_zero]
  · intro ht
    rw [valueFromAngle_eq _ _ hd]
    rw [max_eq_right (le_trans zero_le_one ht), min_eq_left ht, one_mul]
    have : c.min + dialRange c = c.max := by unfold dialRange; ring
    rw [this]
  · intro q hq
    obtain ⟨x, hx⟩ := valueFromAngle_total c ang hd (ne_of_gt hstep)
    rw [hx] at hq
    obtain rfl : dialClamp c x = q := by injection hq
    exact dialClamp_mem c hmm.le x

/-- Witness for C3 (amended): dial min 0, max 100, step 1, arc [0,3];
angle −5 is before the start and resolves to the rounded clamped min. -/
theorem valueFromAngle_outside_clamps_witness :
    (0 : ℚ) < 100 ∧ (0 : ℚ) < 1 ∧ (0 : ℚ) ≠ 3 ∧
    (((-5 : ℚ) - 0) / (3 - 0) ≤ 0 ∧
      valueFromAngle ⟨0, 100, 1, 0, 3⟩ (-5) =
        (dialRound (0 : ℚ) 1).map (dialClamp ⟨0, 100, 1, 0, 3⟩)) :=
  ⟨by norm_num, by norm_num, by norm_num, by norm_num,
    (valueFromAngle_outside_clamps ⟨0, 100, 1, 0, 3⟩ (-5) (by norm_num) (by norm_num)
      (by norm_num)).1 (by norm_num)⟩


lemma dialCoarse_eq (c : DialCfg) (hstep : 0 < c.step) : dialCoarse c = c.step * 10 := by
  unfold dialCoarse
  exact max_eq_left (by nlinarith)

/-- C10 counterexample: dial min 0, max 100, step 1, caller value 0.5
(not on the step grid); ArrowDown clamps −0.5 up to 0, which **is** a
multiple of the step — clamping at the range edge can land the emitted
value back on the grid. -/
theorem keydown_offgrid_cex :
    dialOnKeyDown ⟨0, 100, 1, 0, 3⟩ false (1 / 2) false DialKey.arrowDown = some 0 ∧
    (∀ n : ℤ, (1 / 2 : ℚ) ≠ n * 1) ∧ ((0 : ℚ) = (0 : ℤ) * 1) := by
  refine ⟨?_, ?_, by norm_num⟩
  · norm_num [dialOnKeyDown, dialClamp]
  · intro n h
    rw [mul_one] at h
    have h2 : (2 : ℚ) * n = 1 := by linarith
    have h3 : (2 : ℤ) * n = 1 := by exact_mod_cast h2
    omega

/-- C10 (amended): with positive step, an arrow key emits exactly the
caller value plus/minus the increment (step, or step·10 with shift),
clamped to `[min,max]`, with no rounding to the step grid; whenever the
incremented value needs no clamping, a caller value off the step grid
stays off the step grid. -/
theorem keydown_arrow_exact (c : DialCfg) (v : ℚ) (shift : Bool) (hstep : 0 < c.step) :
    (dialOnKeyDown c false v shift DialKey.arrowRight =
      some (dialClamp c (v + (if shift then c.step * 10 else c.step)))) ∧
    (dialOnKeyDown c false v shift DialKey.arrowUp =
      some (dialClamp c (v + (if shift then c.step * 10 else c.step)))) ∧
    (dialOnKeyDown c false v shift DialKey.arrowLeft =
      some (dialClamp c (v - (if shift then c.step * 10 else c.step)))) ∧
    (dialOnKeyDown c false v shift DialKey.arrowDown =
      some (dialClamp c (v - (if shift then c.step * 10 else c.step)))) ∧
    ((∀ n : ℤ, v ≠ n * c.step) → ∀ w : ℚ,
      (w = v + (if shift then c.step * 10 else c.step) ∨
       w = v - (if shift then c.step * 10 else c.step)) →
      c.min ≤ w → w ≤ c.max → ∀ n : ℤ, dialClamp c w ≠ n * c.step) := by
  have hcoarse := dialCoarse_eq c hstep
  refine ⟨?_, ?_, ?_, ?_, ?_⟩
  · cases shift <;> simp [dialOnKeyDown, hcoarse]
  · cases shift <;> simp [dialOnKeyDown, hcoarse]
  · cases shift <;> simp [dialOnKeyDown, hcoarse]
  · cases shift <;> simp [dialOnKeyDown, hcoarse]
  · intro hv w hw hlo hhi n heq
    have hcl : dialClamp c w = w := by
      unfold dialClamp
      rw [max_eq_right hlo, min_eq_right hhi]
    rw [hcl] at heq
    cases shift with
    | false =>
        simp only [Bool.false_eq_true, if_false] at hw
        rcases hw with rfl | rfl
        · exact hv (n - 1) (by push_cast; linarith)
        · exact hv (n + 1) (by push_cast; linarith)
    | true =>
        simp only [if_true] at hw
        rcases hw with rfl | rfl
        · exact hv (n - 10) (by push_cast; linarith)
        · exact hv (n + 10) (by push_cast; linarith)

/-- Witness for C10 at min 0, max 100, step 1, value 50, no shift. -/
theorem keydown_arrow_exact_witness :
    (0 : ℚ) < 1 ∧
    dialOnKeyDown ⟨0, 100, 1, 0, 3⟩ false 50 false DialKey.arrowRight =
      some (dialClamp ⟨0, 100, 1, 0, 3⟩ (50 + (if false then (1 : ℚ) * 10 else 1))) :=
  ⟨by norm_num, (keydown_arrow_exact ⟨0, 100, 1, 0, 3⟩ 50 false (by norm_num)).1⟩

/-- C9: the pointer-to-value mapping is a pure function of the dial
configuration, bounding box and pointer coordinates: after any two event
histories that leave the control in the dragging state, a pointer-move
at the same client coordinate emits the same value, namely
`setFromPointer` of those coordinates — no hidden mutable state beyond
the boolean dragging flag affects the mapping. -/
theorem pointer_mapping_deterministic (atan2 : ℚ → ℚ → ℚ) (c : DialCfg) (box : BoxRect)
    (disabled : Bool) (h1 h2 : List DialEvent) (x y : ℚ)
    (hd1 : runDialEvents atan2 c box disabled h1 false = true)
    (hd2 : runDialEvents atan2 c box disabled h2 false = true) :
    (dialPointerStep atan2 c box disabled (runDialEvents atan2 c box disabled h1 false)
        (DialEvent.pointerMove x y)).2 =
      (dialPointerStep atan2 c box disabled (runDialEvents atan2 c box disabled h2 false)
        (DialEvent.pointerMove x y)).2 ∧
    (dialPointerStep atan2 c box disabled (runDialEvents atan2 c box disabled h1 false)
        (DialEvent.pointerMove x y)).2 = some (setFromPointer atan2 c box x y) := by
  rw [hd1, hd2]
  simp [dialPointerStep]

/-- Witness for C9: two different drag histories, same move coordinate. -/
theorem pointer_mapping_deterministic_witness :
    runDialEvents (fun a b => a + b) ⟨0, 100, 1, 0, 3⟩ ⟨0, 0, 10, 10⟩ false
        [DialEvent.pointerDown 1 2] false = true ∧
    runDialEvents (fun a b => a + b) ⟨0, 100, 1, 0, 3⟩ ⟨0, 0, 10, 10⟩ false
        [DialEvent.pointerDown 3 4, DialEvent.pointerMove 5 6] false = true ∧
    (dialPointerStep (fun a b => a + b) ⟨0, 100, 1, 0, 3⟩ ⟨0, 0, 10, 10⟩ false
        (runDialEvents (fun a b => a + b) ⟨0, 100, 1, 0, 3⟩ ⟨0, 0, 10, 10⟩ false
          [DialEvent.pointerDown 1 2] false) (DialEvent.pointerMove 7 8)).2 =
      (dialPointerStep (fun a b => a + b) ⟨0, 100, 1, 0, 3⟩ ⟨0, 0, 10, 10⟩ false
        (runDialEvents (fun a b => a + b) ⟨0, 100, 1, 0, 3⟩ ⟨0, 0, 10, 10⟩ false
          [DialEvent.pointerDown 3 4, DialEvent.pointerMove 5 6] false)
        (DialEvent.pointerMove 7 8)).2 :=
  ⟨rfl, rfl,
    (pointer_mapping_deterministic (fun a b => a + b) ⟨0, 100, 1, 0, 3⟩ ⟨0, 0, 10, 10⟩ false
      [DialEvent.pointerDown 1 2] [DialEvent.pointerDown 3 4, DialEvent.pointerMove 5 6]
      7 8 rfl rfl).1⟩

/-! HeadingControl.tsx: normalization into [0,360) and optional cardinal
snapping, applied to every candidate value before `onChange`. -/

/-- JavaScript truncation toward zero — the rounding used by the `%`
remainder operator. -/
def jsTrunc (q : ℚ) : ℤ := if 0 ≤ q then ⌊q⌋ else ⌈q⌉

/-- JavaScript remainder `a % m` for finite operands and `m ≠ 0` (the
heading code only ever uses `m = 360`): `a - m * trunc(a / m)`, so the
result carries the sign of `a`. -/
def jsRem (a m : ℚ) : ℚ := a - m * jsTrunc (a / m)

/-- The normalization `((v % 360) + 360) % 360` in `handleChange`. -/
def normalizeDeg (v : ℚ) : ℚ := jsRem (jsRem v 360 + 360) 360

/-- The `cardinals` array in `handleChange`. -/
def headingCardinals : List ℚ := [0, 90, 180, 270]

/-- The `reduce` computing the cardinal nearest to `deg` (initial
accumulator `cardinals[0]`; earlier elements win ties). -/
def closestCardinal (deg : ℚ) : ℚ :=
  headingCardinals.foldl (fun acc cur => if |cur - deg| < |acc - deg| then cur else acc) 0

/-- HeadingControl's `handleChange`: normalize into [0,360), optionally
snap to the nearest cardinal when strictly within `step` of it; the
result is the value passed to `onChange`. -/
def headingHandleChange (snap : Bool) (step : ℚ) (v : ℚ) : ℚ :=
  let deg := normalizeDeg v
  if snap then
    let closest := closestCardinal deg
    if |closest - deg| < step then closest else deg
  else deg

lemma closestCardinal_mem (deg : ℚ) : closestCardinal deg ∈ headingCardinals := by
  unfold closestCardinal headingCardinals
  simp only [List.foldl]
  split_ifs <;> simp

lemma closestCardinal_min (deg : ℚ) :
    ∀ x ∈ headingCardinals, |closestCardinal deg - deg| ≤ |x - deg| := by
  intro x hx
  fin_cases hx <;>
    (unfold closestCardinal headingCardinals; simp only [List.foldl];
     split_ifs <;> simp only [not_lt] at * <;> linarith)

/-- C5: with snap enabled the emitted heading is a cardinal strictly
within one step of the normalized value exactly when some cardinal lies
strictly within one step of it; otherwise the normalized value is
emitted unchanged. -/
theorem heading_snap_iff (step v : ℚ) :
    ((∃ x ∈ headingCardinals, |x - normalizeDeg v| < step) →
      headingHandleChange true step v ∈ headingCardinals ∧
      |headingHandleChange true step v - normalizeDeg v| < step) ∧
    ((∀ x ∈ headingCardinals, step ≤ |x - normalizeDeg v|) →
      headingHandleChange true step v = normalizeDeg v) := by
  constructor
  · rintro ⟨x, hx, hxs⟩
    have hmin := closestCardinal_min (normalizeDeg v) x hx
    have hlt : |closestCardinal (normalizeDeg v) - normalizeDeg v| < step :=
      lt_of_le_of_lt hmin hxs
    simp only [headingHandleChange, if_pos hlt, if_true]
    exact ⟨closestCardinal_mem _, hlt⟩
  · intro hall
    have hnot : ¬ |closestCardinal (normalizeDeg v) - normalizeDeg v| < step :=
      not_lt.mpr (hall _ (closestCardinal_mem _))
    simp only [headingHandleChange, if_neg hnot, if_true]

/-- Witness for C5: heading 91 with step 2 snaps (to 90 exactly);
heading 95 with step 2 does not snap. -/
theorem heading_snap_iff_witness :
    (∃ x ∈ headingCardinals, |x - normalizeDeg 91| < 2) ∧
    headingHandleChange true 2 91 ∈ headingCardinals ∧
    |headingHandleChange true 2 91 - normalizeDeg 91| < 2 ∧
    headingHandleChange true 2 91 = 90 ∧
    headingHandleChange true 2 95 = 95 := by
  have hex : ∃ x ∈ headingCardinals, |x - normalizeDeg (91 : ℚ)| < 2 := by
    refine ⟨90, by norm_num [headingCardinals], ?_⟩
    norm_num [normalizeDeg, jsRem, jsTrunc]
  obtain ⟨hmem, hclose⟩ := (heading_snap_iff 2 91).1 hex
  refine ⟨hex, hmem, hclose, ?_, ?_⟩
  · norm_num [headingHandleChange, normalizeDeg, jsRem, jsTrunc, closestCardinal,
      headingCardinals, List.foldl]
  · norm_num [headingHandleChange, normalizeDeg, jsRem, jsTrunc, closestCardinal,
      headingCardinals, List.foldl]

lemma jsRem_nonneg_bounds (a m : ℚ) (hm : 0 < m) (ha : 0 ≤ a) :
    0 ≤ jsRem a m ∧ jsRem a m < m := by
  unfold jsRem jsTrunc
  rw [if_pos (div_nonneg ha hm.le)]
  constructor
  · have h := (le_div_iff₀ hm).mp (Int.floor_le (a / m))
    linarith [mul_comm m ((⌊a / m⌋ : ℤ) : ℚ)]
  · have h := (div_lt_iff₀ hm).mp (Int.lt_floor_add_one (a / m))
    linarith [mul_comm m ((⌊a / m⌋ : ℤ) : ℚ)]

lemma jsRem_bounds (a m : ℚ) (hm : 0 < m) : -m < jsRem a m ∧ jsRem a m < m := by
  rcases le_or_lt 0 a with ha | ha
  · have h := jsRem_nonneg_bounds a m hm ha
    exact ⟨by linarith [h.1], h.2⟩
  · unfold jsRem jsTrunc
    rw [if_neg (not_le.mpr (div_neg_of_neg_of_pos ha hm))]
    constructor
    · have h := (lt_div_iff₀ hm).mp (by linarith [Int.ceil_lt_add_one (a / m)] :
        (⌈a / m⌉ : ℚ) - 1 < a / m)
      linarith [mul_comm m ((⌈a / m⌉ : ℤ) : ℚ)]
    · have h := (div_le_iff₀ hm).mp (Int.le_ceil (a / m))
      linarith [mul_comm m ((⌈a / m⌉ : ℤ) : ℚ), hm]

lemma normalizeDeg_mem (v : ℚ) : 0 ≤ normalizeDeg v ∧ normalizeDeg v < 360 := by
  have h1 := jsRem_bounds v 360 (by norm_num)
  exact jsRem_nonneg_bounds _ 360 (by norm_num) (by linarith [h1.1])

lemma normalizeDeg_sub (v : ℚ) : ∃ k : ℤ, v - normalizeDeg v = 360 * k := by
  refine ⟨jsTrunc (v / 360) - 1 + jsTrunc ((jsRem v 360 + 360) / 360), ?_⟩
  unfold normalizeDeg jsRem
  push_cast
  ring

lemma headingHandleChange_range (snap : Bool) (step v : ℚ) :
    0 ≤ headingHandleChange snap step v ∧ headingHandleChange snap step v < 360 := by
  cases snap with
  | false => simpa [headingHandleChange] using normalizeDeg_mem v
  | true =>
      by_cases h : |closestCardinal (normalizeDeg v) - normalizeDeg v| < step
      · simp only [headingHandleChange, if_pos h, if_true]
        have hmem := closestCardinal_mem (normalizeDeg v)
        simp only [headingCardinals, List.mem_cons, List.mem_singleton,
          List.not_mem_nil, or_false] at hmem
        rcases hmem with h0 | h0 | h0 | h0 <;> rw [h0] <;> norm_num
      · simp only [headingHandleChange, if_neg h, if_true]
        exact normalizeDeg_mem v

/-- C6 counterexample: candidate heading 91 with snap enabled and step 2
is emitted as 90, which is not congruent to 91 modulo 360 — with snap on,
the emitted value need not be congruent to the candidate. -/
theorem heading_congruence_cex :
    headingHandleChange true 2 91 = 90 ∧
    ∀ k : ℤ, (91 : ℚ) - headingHandleChange true 2 91 ≠ 360 * k := by
  have h91 : headingHandleChange true 2 91 = 90 := by
    norm_num [headingHandleChange, normalizeDeg, jsRem, jsTrunc, closestCardinal,
      headingCardinals, List.foldl]
  refine ⟨h91, ?_⟩
  intro k h
  rw [h91] at h
  norm_num at h
  have h2 : (1 : ℤ) = 360 * k := by exact_mod_cast h
  omega

/-- C6 (amended): for every integer candidate heading `d` the emitted
value always lies in [0, 360); when snap is disabled it is moreover
congruent to `d` modulo 360. -/
theorem heading_normalized (snap : Bool) (step : ℚ) (d : ℤ) :
    0 ≤ headingHandleChange snap step (d : ℚ) ∧
    headingHandleChange snap step (d : ℚ) < 360 ∧
    (snap = false →
      ∃ k : ℤ, (d : ℚ) - headingHandleChange snap step (d : ℚ) = 360 * k) := by
  obtain ⟨h1, h2⟩ := headingHandleChange_range snap step (d : ℚ)
  refine ⟨h1, h2, ?_⟩
  rintro rfl
  simpa [headingHandleChange] using normalizeDeg_sub ((d : ℤ) : ℚ)

/-- Witness for C6 at d = −450 (negative, beyond one full turn). -/
theorem heading_normalized_witness :
    0 ≤ headingHandleChange false 1 ((-450 : ℤ) : ℚ) ∧
    headingHandleChange false 1 ((-450 : ℤ) : ℚ) < 360 ∧
    ∃ k : ℤ, ((-450 : ℤ) : ℚ) - headingHandleChange false 1 ((-450 : ℤ) : ℚ) = 360 * k :=
  ⟨(heading_normalized false 1 (-450)).1, (heading_normalized false 1 (-450)).2.1,
    (heading_normalized false 1 (-450)).2.2 rfl⟩

/-! SpeedControl / AltitudeControl numeric entry: the NumberField input
handler is `(e) => onChange(Number(e.target.value))`, and the control
wraps it as `(n) => onChange({ value: clamp(n, vmin, vmax), unit })`.
`Number(text)` is NaN for non-numeric entry text (modelled as `none`),
and `Math.min`/`Math.max` propagate NaN, so `clamp` passes NaN through
to the caller's `onChange`. -/

/-- JS `Math.max(a, n)` where `n` may be NaN (`none`): NaN propagates. -/
def jsMaxN (a : ℚ) (n : Option ℚ) : Option ℚ := n.map (max a)

/-- JS `Math.min(b, n)` where `n` may be NaN (`none`): NaN propagates. -/
def jsMinN (b : ℚ) (n : Option ℚ) : Option ℚ := n.map (min b)

/-- The `clamp` helper in SpeedControl: `Math.min(b, Math.max(a, n))`. -/
def clampN (n : Option ℚ) (a b : ℚ) : Option ℚ := jsMinN b (jsMaxN a n)

/-- The value handed to the caller's `onChange` by the numeric-entry
callback: `clamp(Number(text), vmin, vmax)`, where `parsed = none`
models `Number(text) = NaN`. -/
def numberFieldEmit (parsed : Option ℚ) (vmin vmax : ℚ) : Option ℚ :=
  clampN parsed vmin vmax

/-- C4 counterexample: a numeric-entry gesture whose text parses to NaN
(`none`) flows through the clamp unchanged, so `onChange` is invoked
with a non-finite value — not with any finite in-range number. -/
theorem onChange_nonfinite_cex :
    numberFieldEmit none 0 200 = none ∧ ∀ q : ℚ, numberFieldEmit none 0 200 ≠ some q :=
  ⟨rfl, fun _ h => Option.noConfusion h⟩

/-- C4 (amended): pointer and keyboard gestures on a dial with
`min ≤ max`, nonzero step and a non-degenerate arc always emit finite
values within `[min, max]`, and numeric entry clamps every *finite*
parse into `[vmin, vmax]`; only a NaN parse from numeric entry escapes
to `onChange` non-finite. -/
theorem onChange_safe (c : DialCfg) (atan2 : ℚ → ℚ → ℚ) (box : BoxRect)
    (hmm : c.min ≤ c.max) (hstep : c.step ≠ 0) (harc : c.startAngle ≠ c.endAngle) :
    (∀ x y, ∃ q, setFromPointer atan2 c box x y = some q ∧ c.min ≤ q ∧ q ≤ c.max) ∧
    (∀ v shift k e, dialOnKeyDown c false v shift k = some e → c.min ≤ e ∧ e ≤ c.max) ∧
    (∀ (n vmin vmax : ℚ), vmin ≤ vmax →
      ∃ e, numberFieldEmit (some n) vmin vmax = some e ∧ vmin ≤ e ∧ e ≤ vmax) := by
  refine ⟨?_, ?_, ?_⟩
  · intro x y
    obtain ⟨t, ht⟩ := valueFromAngle_total c (pointerAngle atan2 box x y)
      (sub_ne_zero.mpr (Ne.symm harc)) hstep
    exact ⟨dialClamp c t, by simpa [setFromPointer] using ht,
      (dialClamp_mem c hmm t).1, (dialClamp_mem c hmm t).2⟩
  · intro v shift k e h
    cases k
    case arrowRight => simp [dialOnKeyDown] at h; rw [← h]; exact dialClamp_mem c hmm _
    case arrowUp => simp [dialOnKeyDown] at h; rw [← h]; exact dialClamp_mem c hmm _
    case arrowLeft => simp [dialOnKeyDown] at h; rw [← h]; exact dialClamp_mem c hmm _
    case arrowDown => simp [dialOnKeyDown] at h; rw [← h]; exact dialClamp_mem c hmm _
    case pageUp => simp [dialOnKeyDown] at h; rw [← h]; exact dialClamp_mem c hmm _
    case pageDown => simp [dialOnKeyDown] at h; rw [← h]; exact dialClamp_mem c hmm _
    case homeKey => simp [dialOnKeyDown] at h; rw [← h]; exact ⟨le_refl _, hmm⟩
    case endKey => simp [dialOnKeyDown] at h; rw [← h]; exact ⟨hmm, le_refl _⟩
    case other => simp [dialOnKeyDown] at h
  · intro n vmin vmax hle
    exact ⟨min vmax (max vmin n), rfl, le_min hle (le_max_left _ _), min_le_left _ _⟩

/-- Witness for C4 (amended): concrete dial config, and a finite entry
of 250 clamped into [0, 200]. -/
theorem onChange_safe_witness :
    ((0 : ℚ) ≤ 100 ∧ (1 : ℚ) ≠ 0 ∧ (0 : ℚ) ≠ 3) ∧
    (∃ e, numberFieldEmit (some 250) 0 200 = some e ∧ 0 ≤ e ∧ e ≤ 200) :=
  ⟨⟨by norm_num, by norm_num, by norm_num⟩,
    (onChange_safe ⟨0, 100, 1, 0, 3⟩ (fun a b => a * b) ⟨0, 0, 10, 10⟩
      (by norm_num) (by norm_num) (by norm_num)).2.2 250 0 200 (by norm_num)⟩

end VizCtrl
